import Mathlib

/-!
Verification of the core of `ceph-read-bench.py`: shallow embedding of the
object sampler (`prepare_objs`), the read dispatcher (`obj_aio_read`,
`bench_test`), the completion tracker (the `read_res` slot array and the
`aio_read_complete` callback) and the statistics aggregator
(`collect_and_print_statistics`), together with theorems settling the
frozen claims about them.

Timestamps and probabilities are modelled as rationals; Python `int()` is
modelled as truncation toward zero; Python exceptions (`ZeroDivisionError`
in the bandwidth loop, `IndexError` in the IOPS bucket update) are
modelled by `Option`.  The `random.shuffle` calls and the `zipf.pmf`
probability vector are external inputs: shuffles are arbitrary functions
assumed (where a claim needs it) to permute their argument, and the pmf is
an arbitrary positive vector that the code itself normalizes.
-/

set_option linter.unusedVariables false

/-- One entry of the pool's object listing, as used by `prepare_objs`:
`obj.key` together with `obj.stat()[0]`, the object size in bytes. -/
structure Obj where
  key : String
  size : ℕ
deriving DecidableEq

/-- One element of the `objs` list built by `prepare_objs`: the dict
`dict(key=..., len=...)`, i.e. a ReadRequest of the spec's data model. -/
structure ReadRequest where
  key : String
  len : ℕ
deriving DecidableEq

/-- Default ReadRequest used to totalize Python list indexing `objs[idx]`
(the code only ever indexes in bounds). -/
def dReq : ReadRequest := ⟨"", 0⟩

/-- The append `objs.append(dict(key=obj.key, len=obj.stat()[0]))`. -/
def toReq (o : Obj) : ReadRequest := ⟨o.key, o.size⟩

/-- Python `int()` applied to a real value: truncation toward zero. -/
def pyInt (q : ℚ) : ℤ := if q < 0 then ⌈q⌉ else ⌊q⌋

/-- The normalization `objs_p /= sum(objs_p)` of the raw
`[zipf.pmf(i, zipf_parm) for i in range(1, len(cluster_objects)+1)]` vector. -/
def normalizeP (ps : List ℚ) : List ℚ := ps.map (fun p => p / ps.sum)

/-- The `objs_c` loop of `prepare_objs` (zipf branch): for each probability
`p`, `c = int(p*reads_num) + 1 if count < reads_num else 0`, with `count`
accumulating the allocated total. -/
def zipfCountsGo (reads_num : ℕ) : List ℚ → ℤ → List ℤ
  | [], _ => []
  | p :: rest, count =>
      let c : ℤ := if count < (reads_num : ℤ) then pyInt (p * reads_num) + 1 else 0
      c :: zipfCountsGo reads_num rest (count + c)

/-- The full `objs_c` list built by the zipf branch of `prepare_objs`. -/
def zipfCounts (reads_num : ℕ) (ps : List ℚ) : List ℤ := zipfCountsGo reads_num ps 0

/-- The expansion loop of the zipf branch: for each listed object, append
`objs_c[i]` copies of `dict(key=obj.key, len=obj.stat()[0])` (the key and
length are fetched on the first iteration `j == 0` and reused after). -/
def zipfExpand : List Obj → List ℤ → List ReadRequest
  | [], _ => []
  | _, [] => []
  | o :: os, c :: cs => List.replicate c.toNat (toReq o) ++ zipfExpand os cs

/-- The first loop of the uniform branch of `prepare_objs`: append one
request per listed object, returning early (`Sum.inl`, skipping the final
shuffle) as soon as `count == reads_num`; otherwise fall through
(`Sum.inr`) with the accumulated requests and their count. -/
def uniformTake (reads_num : ℕ) : List Obj → List ReadRequest → ℕ → (List ReadRequest) ⊕ (List ReadRequest × ℕ)
  | [], objs, count => Sum.inr (objs, count)
  | o :: rest, objs, count =>
      if count + 1 = reads_num then Sum.inl (objs ++ [toReq o])
      else uniformTake reads_num rest (objs ++ [toReq o]) (count + 1)

/-- The `while count < reads_num` loop of the uniform branch: keep
appending `objs[count % obj_num]` until `count == reads_num`. -/
def uniformFill (objs : List ReadRequest) (count obj_num reads_num : ℕ) : List ReadRequest :=
  if h : count < reads_num then
    uniformFill (objs ++ [objs.getD (count % obj_num) dReq]) (count + 1) obj_num reads_num
  else objs
termination_by reads_num - count
decreasing_by omega

/-- The sampler `prepare_objs(ioctx, reads_num, use_zipf, zipf_parm)`.
`listing` stands for `list(ioctx.list_objects())` with the sizes already
fetched; `ps` stands for the raw `zipf.pmf` vector (zipf branch only);
`shC` models `shuffle(objs_c)` and `sh` models the final `shuffle(objs)`
(both are arbitrary reorderings supplied by the random number generator).
The uniform early return (`N ≤ M`) bypasses the final shuffle. -/
def prepare_objs (listing : List Obj) (reads_num : ℕ) (use_zipf : Bool) (ps : List ℚ)
    (shC : List ℤ → List ℤ) (sh : List ReadRequest → List ReadRequest) : List ReadRequest :=
  if use_zipf then
    sh (zipfExpand listing (shC (zipfCounts reads_num (normalizeP ps))))
  else
    match uniformTake reads_num listing [] 0 with
    | Sum.inl objs => objs
    | Sum.inr (objs, count) => sh (uniformFill objs count count reads_num)

/-- Reference description of the uniform branch for `M < N`: request `i`
is listing entry `i mod M`.  `cycleList base n` is the first `n` requests
obtained by cycling through `base`. -/
def cycleList (base : List ReadRequest) (n : ℕ) : List ReadRequest :=
  (List.range n).map (fun i => base.getD (i % base.length) dReq)

/-- One slot of the completion tracker: the dict
`dict(start=0.0, end=0.0, len=0, finish=False)` (field `endT` models the
Python key `end`, a reserved word in Lean). -/
structure ReadRes where
  start : ℚ
  endT : ℚ
  len : ℕ
  finish : Bool
deriving DecidableEq

/-- The slot array `read_res` built by `bench_test` before dispatch:
`reads_num` default-initialized slots. -/
def init_read_res (reads_num : ℕ) : List ReadRes :=
  List.replicate reads_num ⟨0, 0, 0, false⟩

/-- The start stamp `read_res[tid]['start'] = time.time()` performed by
`obj_aio_read` immediately before issuing the asynchronous read. -/
def obj_aio_read_start (t : ℚ) (s : ReadRes) : ReadRes := { s with start := t }

/-- The completion callback `aio_read_complete(_, data)` of `obj_aio_read`,
acting on its request's slot at callback time `t`.  The callback first
stamps `end`, then evaluates `len(data)`: when the read failed the data
argument is `None`, `len(None)` raises `TypeError`, and neither `len` nor
`finish` is ever written — but the `end` stamp has already happened. -/
def aio_read_complete (t : ℚ) (data : Option (List ℕ)) (s : ReadRes) : ReadRes :=
  let s1 := { s with endT := t }
  match data with
  | none => s1
  | some d => { s1 with len := d.length, finish := true }

/-- Python `max` over a nonempty list (`max(end)`); 0 on `[]` (unused). -/
def pyMax : List ℚ → ℚ
  | [] => 0
  | h :: t => t.foldl max h

/-- Python `min` over a nonempty list; 0 on `[]` (unused).  Reference
definition for "the minimum startTime over the completed slots". -/
def pyMin : List ℚ → ℚ
  | [] => 0
  | h :: t => t.foldl min h

/-- The `base_t` update of the statistics loop:
`base_t = r['start'] if base_t == 0 or r['start'] < base_t else base_t`. -/
def baseUpd (b s : ℚ) : ℚ := if b = 0 ∨ s < b then s else b

/-- Per-sample bandwidth `r['len']/(r['end']-r['start'])/(1000*1000)`. -/
def bwOf (r : ReadRes) : ℚ := (r.len : ℚ) / (r.endT - r.start) / (1000 * 1000)

/-- Per-sample latency `r['end']-r['start']`. -/
def latOf (r : ReadRes) : ℚ := r.endT - r.start

/-- The `for r in res` loop of `collect_and_print_statistics`: skip slots
with `finish` false; otherwise update `base_t`, append to `end`, append
the bandwidth sample (raising `ZeroDivisionError`, modelled as `none`,
when `r['end'] - r['start']` is zero) and append the latency sample. -/
def collectLoop : List ReadRes → ℚ → List ℚ → List ℚ → List ℚ →
    Option (ℚ × List ℚ × List ℚ × List ℚ)
  | [], base_t, endL, bw_mbs, lat => some (base_t, endL, bw_mbs, lat)
  | r :: res, base_t, endL, bw_mbs, lat =>
      if r.finish = false then collectLoop res base_t endL bw_mbs lat
      else
        let b := baseUpd base_t r.start
        if r.endT - r.start = 0 then none
        else collectLoop res b (endL ++ [r.endT]) (bw_mbs ++ [bwOf r]) (lat ++ [latOf r])

/-- The bucket update `iops[int(e - base_t)] += 1` with Python list
indexing: a negative index wraps once by the length, anything still out of
range raises `IndexError` (modelled as `none`). -/
def pyGetIncr (l : List ℕ) (idx : ℤ) : Option (List ℕ) :=
  let i : ℤ := if idx < 0 then idx + l.length else idx
  if h : 0 ≤ i ∧ i < l.length then some (l.set i.toNat (l.getD i.toNat 0 + 1)) else none

/-- The `for e in end` bucket loop of `collect_and_print_statistics`
(an `IndexError` from the update propagates, aborting the program). -/
def iopsFill (base_t : ℚ) : List ℚ → List ℕ → Option (List ℕ)
  | [], iops => some iops
  | e :: es, iops =>
      (pyGetIncr iops (pyInt (e - base_t))).bind (fun iops1 => iopsFill base_t es iops1)

/-- The tail of `collect_and_print_statistics` after the collection loop:
the degenerate zero-completions branch, else
`total_lat = int(max(end) - base_t) + 1`, `iops = [0] * total_lat` and the
bucket loop. -/
def statsOf (base_t : ℚ) (endL bw_mbs lat : List ℚ) :
    Option (List ℚ × List ℕ × List ℚ) :=
  if bw_mbs.length = 0 then some ([0], [0], [0])
  else
    (iopsFill base_t endL (List.replicate ((pyInt (pyMax endL - base_t) + 1).toNat) 0)).bind
      (fun iops => some (bw_mbs, iops, lat))

/-- The aggregator `collect_and_print_statistics(res)`, up to the final
`print_statistics(bw_mbs, iops, lat)` call: it returns the triple of lists
handed to the printer, or `none` when a Python exception is raised. -/
def collect_and_print_statistics (res : List ReadRes) :
    Option (List ℚ × List ℕ × List ℚ) :=
  (collectLoop res 0 [] [] []).bind (fun x => statsOf x.1 x.2.1 x.2.2.1 x.2.2.2)

/-- The completed slots of a result array: the samples the aggregator
keeps (`completed == true` in the spec's words). -/
def finished (res : List ReadRes) : List ReadRes := res.filter (fun r => r.finish)

/-- Reference IOPS histogram, following the spec's §4.4 with the `int()`
truncation the code actually performs in place of `ceil`:
`baseTime` is the minimum start time over completed slots, there are
`⌊max(endTime) - baseTime⌋ + 1` whole-second buckets, and bucket `k`
counts the completed samples with `⌊endTime - baseTime⌋ = k`. -/
def iopsRef (res : List ReadRes) : List ℕ :=
  let base := pyMin ((finished res).map (fun r => r.start))
  let dur := (⌊pyMax ((finished res).map (fun r => r.endT)) - base⌋).toNat + 1
  (List.range dur).map
    (fun (k : ℕ) => (((finished res).map (fun r => r.endT)).filter
      (fun e => ⌊e - base⌋ = (k : ℤ))).length)

/-- Events of a dispatch run of `bench_test`: for request `i`,
`tstart i` is the pool worker beginning to execute `obj_aio_read(i, ...)`,
`issue i` is the `ioctx.aio_read` call made inside it, `tret i` is
`obj_aio_read` returning (freeing the worker), and `comp i` is the
invocation of the asynchronous read's completion callback. -/
inductive Ev where
  | tstart : ℕ → Ev
  | issue : ℕ → Ev
  | tret : ℕ → Ev
  | comp : ℕ → Ev
deriving DecidableEq

/-- The request a dispatch event belongs to. -/
def Ev.req : Ev → ℕ
  | .tstart i => i
  | .issue i => i
  | .tret i => i
  | .comp i => i

/-- Number of pool tasks concurrently executing after the events `p`:
requests whose `obj_aio_read` call has started but not returned. -/
def activeTasks (N : ℕ) (p : List Ev) : ℕ :=
  ((List.range N).filter (fun i => p.count (Ev.tret i) < p.count (Ev.tstart i))).length

/-- Number of asynchronous reads outstanding after the events `p`:
requests whose `ioctx.aio_read` has been issued but whose completion
callback has not yet run. -/
def outstanding (N : ℕ) (p : List Ev) : ℕ :=
  ((List.range N).filter (fun i => p.count (Ev.comp i) < p.count (Ev.issue i))).length

/-- Event traces that `bench_test` with `reads_num = N` read requests and
`ThreadPoolExecutor(max_workers=W)` can produce: every request is started,
issued, returned and completed exactly once; within a request the start
precedes the issue, which precedes both the task return and the
completion; tasks are dequeued from the pool in submission order; and at
every moment at most `W` pool tasks execute concurrently.  Nothing orders
a completion `comp i` before the task returns `tret i`: `obj_aio_read`
returns immediately after issuing, without waiting for the read. -/
def validTrace (W N : ℕ) (tr : List Ev) : Prop :=
  (∀ e ∈ tr, e.req < N) ∧
  (∀ i < N, tr.count (Ev.tstart i) = 1 ∧ tr.count (Ev.issue i) = 1 ∧
      tr.count (Ev.tret i) = 1 ∧ tr.count (Ev.comp i) = 1) ∧
  (∀ n < tr.length + 1, ∀ i < N,
      (tr.take n).count (Ev.issue i) ≤ (tr.take n).count (Ev.tstart i) ∧
      (tr.take n).count (Ev.tret i) ≤ (tr.take n).count (Ev.issue i) ∧
      (tr.take n).count (Ev.comp i) ≤ (tr.take n).count (Ev.issue i)) ∧
  (∀ n < tr.length + 1, ∀ j < N, ∀ i < j,
      (tr.take n).count (Ev.tstart j) ≤ (tr.take n).count (Ev.tstart i)) ∧
  (∀ n < tr.length + 1, activeTasks N (tr.take n) ≤ W)

instance validTrace.decidable (W N : ℕ) (tr : List Ev) : Decidable (validTrace W N tr) := by
  unfold validTrace
  infer_instance

/-- A schedule of `bench_test` with `N = 2` requests and a single worker
(`W = 1`): the worker issues request 0's asynchronous read and returns,
then issues request 1's read; both reads complete only afterwards. -/
def exTrace : List Ev :=
  [Ev.tstart 0, Ev.issue 0, Ev.tret 0, Ev.tstart 1, Ev.issue 1, Ev.tret 1,
   Ev.comp 0, Ev.comp 1]

/-- Claim C1 (counterexample): with `W = 1 ≤ 2 = N`, the schedule
`exTrace` is a trace `bench_test` can produce, yet right after the single
worker has issued request 1's read (take 6) both asynchronous reads are
issued and uncompleted: the dispatcher does not keep the number of
outstanding `aio_read` operations below `W`. -/
theorem C1_counterexample :
    validTrace 1 2 exTrace ∧ ¬ outstanding 2 (exTrace.take 6) ≤ 1 := by decide

/-- Claim C1 (amended): at every moment of a dispatch run, at most `W`
read-issuing pool tasks execute concurrently, but the number of
issued-but-uncompleted asynchronous reads is only bounded by `N`
(`obj_aio_read` returns right after `ioctx.aio_read`, so a worker is freed
while its read is still in flight). -/
theorem C1_theorem (W N : ℕ) (tr : List Ev) (n : ℕ) (h : validTrace W N tr) :
    activeTasks N (tr.take n) ≤ W ∧ outstanding N (tr.take n) ≤ N := by
  constructor
  · obtain ⟨-, -, -, -, hpool⟩ := h
    rcases le_or_lt n tr.length with hn | hn
    · exact hpool n (by omega)
    · rw [List.take_of_length_le (le_of_lt hn)]
      have := hpool tr.length (by omega)
      rwa [List.take_length] at this
  · calc outstanding N (tr.take n)
        ≤ (List.range N).length := List.length_filter_le _ _
      _ = N := List.length_range N

/-- Witness for the amended claim C1 at `W = 1`, `N = 2`, `exTrace`. -/
theorem C1_witness :
    validTrace 1 2 exTrace ∧
      (activeTasks 2 (exTrace.take 6) ≤ 1 ∧ outstanding 2 (exTrace.take 6) ≤ 2) :=
  ⟨by decide, C1_theorem 1 2 exTrace 6 (by decide)⟩

/-- The collection loop never inspects slots whose `finish` flag is false:
it only appends data for the slots of its input that pass the
`if not r['finish']: continue` test, and fails exactly when some finished
slot has a zero measured interval. -/
theorem collectLoop_ok (res : List ReadRes) (b : ℚ) (endL bw lat : List ℚ)
    (h : ∀ r ∈ res, r.finish = true → r.endT - r.start ≠ 0) :
    collectLoop res b endL bw lat =
      some ((res.filter (fun r => r.finish)).foldl (fun x r => baseUpd x r.start) b,
        endL ++ (res.filter (fun r => r.finish)).map (fun r => r.endT),
        bw ++ (res.filter (fun r => r.finish)).map bwOf,
        lat ++ (res.filter (fun r => r.finish)).map latOf) := by
  induction res generalizing b endL bw lat with
  | nil => simp [collectLoop]
  | cons r rs ih =>
    by_cases hf : r.finish = true
    · have hne : ¬ r.endT - r.start = 0 := h r (by simp) hf
      have hstep : collectLoop (r :: rs) b endL bw lat =
          collectLoop rs (baseUpd b r.start) (endL ++ [r.endT]) (bw ++ [bwOf r])
            (lat ++ [latOf r]) := by
        rw [collectLoop]
        simp [hf, hne]
      rw [hstep, ih _ _ _ _ (fun x hx hfx => h x (List.mem_cons_of_mem _ hx) hfx)]
      simp [List.filter_cons, hf, List.append_assoc]
    · have hf' : r.finish = false := by
        cases hr : r.finish
        · rfl
        · exact absurd hr hf
      have hstep : collectLoop (r :: rs) b endL bw lat = collectLoop rs b endL bw lat := by
        rw [collectLoop]
        simp [hf']
      rw [hstep, ih _ _ _ _ (fun x hx hfx => h x (List.mem_cons_of_mem _ hx) hfx)]
      simp [List.filter_cons, hf']

/-- Slots with `finish = false` are invisible to the collection loop:
removing such a slot anywhere in the input leaves the result unchanged. -/
theorem collectLoop_skip (l1 l2 : List ReadRes) (r : ReadRes) (hr : r.finish = false)
    (b : ℚ) (endL bw lat : List ℚ) :
    collectLoop (l1 ++ r :: l2) b endL bw lat = collectLoop (l1 ++ l2) b endL bw lat := by
  induction l1 generalizing b endL bw lat with
  | nil =>
    simp only [List.nil_append]
    rw [collectLoop]
    simp [hr]
  | cons x xs ih =>
    by_cases hx : x.finish = true
    · by_cases hz : x.endT - x.start = 0
      · simp only [List.cons_append]
        rw [collectLoop, collectLoop]
        simp [hx, hz]
      · simp only [List.cons_append]
        rw [collectLoop, collectLoop]
        simp only [hx, hz]
        simp [ih]
    · have hx' : x.finish = false := by
        cases hxx : x.finish
        · rfl
        · exact absurd hxx hx
      simp only [List.cons_append]
      rw [collectLoop, collectLoop]
      simp [hx', ih]

/-- Folding `min` from a seed is a lower bound for the seed. -/
theorem foldl_min_le_self (t : List ℚ) (b : ℚ) : t.foldl min b ≤ b := by
  induction t generalizing b with
  | nil => exact le_refl b
  | cons a t ih => exact le_trans (ih (min b a)) (min_le_left b a)

/-- Folding `min` from a seed is a lower bound for every element. -/
theorem foldl_min_le_mem (t : List ℚ) (b x : ℚ) (hx : x ∈ t) : t.foldl min b ≤ x := by
  induction t generalizing b with
  | nil => cases hx
  | cons a t ih =>
    rcases List.mem_cons.mp hx with rfl | hx'
    · exact le_trans (foldl_min_le_self t (min b x)) (min_le_right b x)
    · exact ih (min b a) hx'

/-- Folding `max` from a seed is an upper bound for the seed. -/
theorem le_foldl_max_self (t : List ℚ) (b : ℚ) : b ≤ t.foldl max b := by
  induction t generalizing b with
  | nil => exact le_refl b
  | cons a t ih => exact le_trans (le_max_left b a) (ih (max b a))

/-- Folding `max` from a seed is an upper bound for every element. -/
theorem le_foldl_max_mem (t : List ℚ) (b x : ℚ) (hx : x ∈ t) : x ≤ t.foldl max b := by
  induction t generalizing b with
  | nil => cases hx
  | cons a t ih =>
    rcases List.mem_cons.mp hx with rfl | hx'
    · exact le_trans (le_max_right b x) (le_foldl_max_self t (max b x))
    · exact ih (max b a) hx'

/-- `min(l)`, Python style, bounds every member from below. -/
theorem pyMin_le (l : List ℚ) (x : ℚ) (hx : x ∈ l) : pyMin l ≤ x := by
  cases l with
  | nil => cases hx
  | cons h t =>
    rw [pyMin]
    rcases List.mem_cons.mp hx with rfl | hx'
    · exact foldl_min_le_self t x
    · exact foldl_min_le_mem t h x hx'

/-- `max(l)`, Python style, bounds every member from above. -/
theorem le_pyMax (l : List ℚ) (x : ℚ) (hx : x ∈ l) : x ≤ pyMax l := by
  cases l with
  | nil => cases hx
  | cons h t =>
    rw [pyMax]
    rcases List.mem_cons.mp hx with rfl | hx'
    · exact le_foldl_max_self t x
    · exact le_foldl_max_mem t h x hx'

/-- On positive data, the `base_t == 0` sentinel behaves like folding
`min`: the loop seed 0 is replaced by the first start time and afterwards
the update keeps the running minimum (which stays positive). -/
theorem foldl_baseUpd_pos (t : List ℚ) (b : ℚ) (hb : 0 < b) (hpos : ∀ s ∈ t, 0 < s) :
    t.foldl baseUpd b = t.foldl min b := by
  induction t generalizing b with
  | nil => rfl
  | cons s t ih =>
    have hs : 0 < s := hpos s (by simp)
    have hupd : baseUpd b s = min b s := by
      rw [baseUpd]
      have hb0 : ¬ b = 0 := ne_of_gt hb
      by_cases hlt : s < b
      · simp [hb0, hlt, min_eq_right (le_of_lt hlt)]
      · simp [hb0, hlt, min_eq_left (le_of_not_lt hlt)]
    rw [List.foldl_cons, List.foldl_cons, hupd]
    exact ih (min b s) (lt_min hb hs) (fun x hx => hpos x (by simp [hx]))

/-- With every start time positive (as `time.time()` stamps are), the
`base_t` fold started from the sentinel 0 computes the minimum. -/
theorem foldl_baseUpd_zero (l : List ℚ) (hl : l ≠ []) (hpos : ∀ s ∈ l, 0 < s) :
    l.foldl baseUpd 0 = pyMin l := by
  cases l with
  | nil => exact absurd rfl hl
  | cons h t =>
    have hh : 0 < h := hpos h (by simp)
    have h0 : baseUpd 0 h = h := by simp [baseUpd]
    rw [List.foldl_cons, h0, pyMin]
    exact foldl_baseUpd_pos t h hh (fun x hx => hpos x (by simp [hx]))

/-- Reading an updated cell: at the updated index, `set` then `getD`
returns the written value. -/
theorem getD_set_same (l : List ℕ) (i v : ℕ) (h : i < l.length) :
    (l.set i v).getD i 0 = v := by
  induction l generalizing i with
  | nil => cases h
  | cons a t ih =>
    cases i with
    | zero => rfl
    | succ j =>
      rw [List.set_cons_succ, List.getD_cons_succ]
      exact ih j (by simpa using h)

/-- Reading an updated cell: away from the updated index, `set` does not
change what `getD` returns. -/
theorem getD_set_diff (l : List ℕ) (i j v : ℕ) (h : i ≠ j) :
    (l.set i v).getD j 0 = l.getD j 0 := by
  induction l generalizing i j with
  | nil => rfl
  | cons a t ih =>
    cases i with
    | zero =>
      cases j with
      | zero => exact absurd rfl h
      | succ j' => rfl
    | succ i' =>
      cases j with
      | zero => rfl
      | succ j' =>
        rw [List.set_cons_succ, List.getD_cons_succ, List.getD_cons_succ]
        exact ih i' j' (fun he => h (by rw [he]))

/-- `getD` past the end of the list returns the default. -/
theorem getD_big (l : List ℕ) (k : ℕ) (h : l.length ≤ k) : l.getD k 0 = 0 := by
  induction l generalizing k with
  | nil => rfl
  | cons a t ih =>
    cases k with
    | zero => cases h
    | succ k' =>
      rw [List.getD_cons_succ]
      exact ih k' (by simpa using h)

/-- Every cell of `[0] * n` reads as zero. -/
theorem getD_replicate_zero (n k : ℕ) : (List.replicate n (0 : ℕ)).getD k 0 = 0 := by
  induction n generalizing k with
  | zero => rfl
  | succ m ih =>
    cases k with
    | zero => rfl
    | succ k' =>
      rw [List.replicate_succ, List.getD_cons_succ]
      exact ih k'

/-- The bucket loop succeeds when every end time lands in range, and the
final array holds, in each cell `k`, its initial contents plus the number
of end times `e` with `int(e - base_t) = k`. -/
theorem iopsFill_ok (base : ℚ) (es : List ℚ) : ∀ iops : List ℕ,
    (∀ e ∈ es, 0 ≤ pyInt (e - base) ∧ (pyInt (e - base)).toNat < iops.length) →
    ∃ iops1, iopsFill base es iops = some iops1 ∧ iops1.length = iops.length ∧
      ∀ k : ℕ, iops1.getD k 0 =
        iops.getD k 0 + (es.filter (fun e => pyInt (e - base) = (k : ℤ))).length := by
  induction es with
  | nil =>
    intro iops _
    exact ⟨iops, rfl, rfl, fun k => by simp [List.filter_nil]⟩
  | cons e es ih =>
    intro iops h
    obtain ⟨hnn, hlt⟩ := h e (by simp)
    have hltZ : pyInt (e - base) < (iops.length : ℤ) := by
      omega
    have hset : pyGetIncr iops (pyInt (e - base)) =
        some (iops.set (pyInt (e - base)).toNat
          (iops.getD (pyInt (e - base)).toNat 0 + 1)) := by
      rw [pyGetIncr]
      have hneg : ¬ pyInt (e - base) < 0 := by omega
      simp only [hneg, if_false]
      rw [dif_pos ⟨hnn, hltZ⟩]
    have hfill : iopsFill base (e :: es) iops =
        iopsFill base es (iops.set (pyInt (e - base)).toNat
          (iops.getD (pyInt (e - base)).toNat 0 + 1)) := by
      rw [iopsFill, hset, Option.some_bind]
    set idx := (pyInt (e - base)).toNat with hidx
    set iops' := iops.set idx (iops.getD idx 0 + 1) with hiops'
    have hlen' : iops'.length = iops.length := List.length_set iops idx _
    obtain ⟨iops1, h1, h2, h3⟩ := ih iops' (by
      intro x hx
      obtain ⟨a, bb⟩ := h x (by simp [hx])
      exact ⟨a, by omega⟩)
    refine ⟨iops1, by rw [hfill, h1], by rw [h2, hlen'], ?_⟩
    intro k
    rw [h3 k]
    by_cases hk : k = idx
    · rw [hk, getD_set_same iops idx _ (by omega)]
      have hpe : pyInt (e - base) = (idx : ℤ) := by omega
      simp [List.filter_cons, hpe]
      omega
    · rw [getD_set_diff iops idx k _ (fun hh => hk hh.symm)]
      have : ¬ pyInt (e - base) = (k : ℤ) := by omega
      simp [List.filter_cons, this]

/-- Claim C4 (amended): on a result array with at least one completed
slot, positive start stamps, and each completed interval of positive
length, the aggregator computes `baseTime` as the minimum start time over
completed slots, builds exactly `⌊max(endTime) - baseTime⌋ + 1`
whole-second buckets (`int()` truncation, not `ceil`), and counts each
completed sample into bucket `⌊endTime - baseTime⌋`; the bandwidth and
latency lists are the per-completed-sample values. -/
theorem C4_theorem (res : List ReadRes)
    (hne : finished res ≠ [])
    (hpos : ∀ r ∈ res, r.finish = true → 0 < r.start)
    (hlt : ∀ r ∈ res, r.finish = true → r.start < r.endT) :
    collect_and_print_statistics res =
      some ((finished res).map bwOf, iopsRef res, (finished res).map latOf) := by
  have hmemF : ∀ r ∈ finished res, r ∈ res ∧ r.finish = true := by
    intro r hr
    rw [finished, List.mem_filter] at hr
    exact ⟨hr.1, by simpa using hr.2⟩
  have hneq : ∀ r ∈ res, r.finish = true → r.endT - r.start ≠ 0 := by
    intro r hr hf h0
    have h1 := hlt r hr hf
    have : r.endT = r.start := by linarith [sub_eq_zero.mp h0]
    exact absurd this (ne_of_gt h1)
  have hloop := collectLoop_ok res 0 [] [] [] hneq
  have hFfilter : res.filter (fun r => r.finish) = finished res := rfl
  rw [hFfilter] at hloop
  set F := finished res with hF
  set starts := F.map (fun r => r.start) with hstarts
  set endL := F.map (fun r => r.endT) with hendL
  have hstartsne : starts ≠ [] := by
    rw [hstarts]
    simp [hne]
  have hendLne : endL ≠ [] := by
    rw [hendL]
    simp [hne]
  have hspos : ∀ s ∈ starts, 0 < s := by
    intro s hs
    obtain ⟨r, hrF, hre⟩ := List.mem_map.mp hs
    obtain ⟨hr, hf⟩ := hmemF r hrF
    rw [← hre]
    exact hpos r hr hf
  have hbase : F.foldl (fun x r => baseUpd x r.start) 0 = pyMin starts := by
    rw [← foldl_baseUpd_zero starts hstartsne hspos, hstarts, List.foldl_map]
  set base := pyMin starts with hbasedef
  have hbaselt : ∀ e ∈ endL, base < e := by
    intro e he
    obtain ⟨r, hrF, hre⟩ := List.mem_map.mp he
    obtain ⟨hr, hf⟩ := hmemF r hrF
    have h1 : base ≤ r.start := pyMin_le starts r.start (List.mem_map.mpr ⟨r, hrF, rfl⟩)
    have h2 : r.start < r.endT := hlt r hr hf
    rw [← hre]
    linarith
  have hmaxlt : base < pyMax endL := by
    obtain ⟨e, he⟩ := List.exists_mem_of_ne_nil endL hendLne
    exact lt_of_lt_of_le (hbaselt e he) (le_pyMax endL e he)
  have hpymax : pyInt (pyMax endL - base) = ⌊pyMax endL - base⌋ := by
    rw [pyInt, if_neg (by linarith)]
  have hfl0 : 0 ≤ ⌊pyMax endL - base⌋ := Int.floor_nonneg.mpr (by linarith)
  have htot : (pyInt (pyMax endL - base) + 1).toNat = ⌊pyMax endL - base⌋.toNat + 1 := by
    rw [hpymax]
    omega
  set total := ⌊pyMax endL - base⌋.toNat + 1 with htotal
  have hidxok : ∀ e ∈ endL, 0 ≤ pyInt (e - base) ∧
      (pyInt (e - base)).toNat < (List.replicate total (0 : ℕ)).length := by
    intro e he
    have h1 : base < e := hbaselt e he
    have h2 : pyInt (e - base) = ⌊e - base⌋ := by
      rw [pyInt, if_neg (by linarith)]
    have h3 : 0 ≤ ⌊e - base⌋ := Int.floor_nonneg.mpr (by linarith)
    have h4 : ⌊e - base⌋ ≤ ⌊pyMax endL - base⌋ :=
      Int.floor_le_floor (by linarith [le_pyMax endL e he])
    rw [h2, List.length_replicate]
    omega
  obtain ⟨iops1, hfill, hlen1, hget1⟩ :=
    iopsFill_ok base endL (List.replicate total 0) hidxok
  have hiops1 : iops1 = iopsRef res := by
    have hlenref : iops1.length = total := by
      rw [hlen1, List.length_replicate]
    have hrefdef : iopsRef res = (List.range total).map
        (fun (k : ℕ) => (endL.filter (fun e => ⌊e - base⌋ = (k : ℤ))).length) := by
      rw [iopsRef]
    rw [hrefdef]
    apply List.ext_getElem (by simp [hlenref])
    intro k hk1 hk2
    have hkt : k < total := by
      rw [hlenref] at hk1
      exact hk1
    have hgd : iops1.getD k 0 = iops1[k] := List.getD_eq_getElem iops1 0 hk1
    rw [← hgd, hget1 k, getD_replicate_zero, Nat.zero_add]
    have hfiltc : endL.filter (fun e => pyInt (e - base) = (k : ℤ)) =
        endL.filter (fun e => ⌊e - base⌋ = (k : ℤ)) := by
      apply List.filter_congr
      intro e he
      have h1 : base < e := hbaselt e he
      have h2 : pyInt (e - base) = ⌊e - base⌋ := by
        rw [pyInt, if_neg (by linarith)]
      simp [h2]
    rw [hfiltc]
    simp
  rw [collect_and_print_statistics, hloop, Option.some_bind]
  simp only [List.nil_append]
  rw [statsOf]
  have hbwlen : ¬ (F.map bwOf).length = 0 := by
    simp [hne]
  rw [if_neg hbwlen, hbase, htot]
  rw [hfill, Option.some_bind, hiops1]

/-- Claim C4 (counterexample): a single completed slot with
`start = 1, end = 3/2` yields one IOPS bucket (`int(1/2) + 1 = 1`),
not the `ceil(1/2) + 1 = 2` buckets the claim asserts. -/
theorem C4_counterexample :
    collect_and_print_statistics [⟨1, 3/2, 500000, true⟩] = some ([1], [1], [1/2]) ∧
      ¬ (([1] : List ℕ).length = (⌈(3/2 : ℚ) - 1⌉ + 1).toNat) := by
  constructor
  · have h1 : collectLoop [⟨1, 3/2, 500000, true⟩] 0 [] [] [] =
        some (1, [3/2], [1], [1/2]) := by
      norm_num [collectLoop, baseUpd, bwOf, latOf]
    have h2 : pyGetIncr [0] (pyInt (1/2)) = some [1] := by
      norm_num [pyGetIncr, pyInt]
    rw [collect_and_print_statistics, h1, Option.some_bind]
    show statsOf 1 [3/2] [1] [1/2] = _
    rw [statsOf]
    norm_num [pyMax, pyInt]
    rw [iopsFill]
    norm_num [h2, iopsFill]
  · have h : (⌈(3:ℚ)/2 - 1⌉ : ℤ) = 1 := by
      rw [Int.ceil_eq_iff]
      norm_num
    rw [h]
    decide

/-- Witness for the amended claim C4 on a concrete one-slot result
array. -/
theorem C4_witness :
    (finished [⟨1, 3/2, 500000, true⟩] ≠ [] ∧
      (∀ r ∈ [(⟨1, 3/2, 500000, true⟩ : ReadRes)], r.finish = true → 0 < r.start) ∧
      (∀ r ∈ [(⟨1, 3/2, 500000, true⟩ : ReadRes)], r.finish = true → r.start < r.endT)) ∧
    collect_and_print_statistics [⟨1, 3/2, 500000, true⟩] =
      some ((finished [⟨1, 3/2, 500000, true⟩]).map bwOf,
        iopsRef [⟨1, 3/2, 500000, true⟩],
        (finished [⟨1, 3/2, 500000, true⟩]).map latOf) := by
  have h1 : finished [(⟨1, 3/2, 500000, true⟩ : ReadRes)] ≠ [] := by
    simp [finished]
  have h2 : ∀ r ∈ [(⟨1, 3/2, 500000, true⟩ : ReadRes)], r.finish = true → 0 < r.start := by
    intro r hr _
    rw [List.mem_singleton] at hr
    rw [hr]
    norm_num
  have h3 : ∀ r ∈ [(⟨1, 3/2, 500000, true⟩ : ReadRes)], r.finish = true → r.start < r.endT := by
    intro r hr _
    rw [List.mem_singleton] at hr
    rw [hr]
    norm_num
  exact ⟨⟨h1, h2, h3⟩, C4_theorem [⟨1, 3/2, 500000, true⟩] h1 h2 h3⟩

/-- Claim C8: when no slot has `finish = true`, the aggregator returns the
degenerate summaries `bandwidth=[0], iops=[0], latency=[0]` and raises no
division error (the result is `some`, and each returned list is a single
zero sample). -/
theorem C8_theorem (res : List ReadRes) (h : ∀ r ∈ res, r.finish = false) :
    collect_and_print_statistics res = some ([0], [0], [0]) := by
  have hneq : ∀ r ∈ res, r.finish = true → r.endT - r.start ≠ 0 := by
    intro r hr hf
    rw [h r hr] at hf
    cases hf
  have hloop := collectLoop_ok res 0 [] [] [] hneq
  have hemp : res.filter (fun r => r.finish) = [] := by
    rw [List.filter_eq_nil_iff]
    intro r hr
    simp [h r hr]
  rw [hemp] at hloop
  simp only [List.map_nil, List.append_nil, List.foldl_nil] at hloop
  rw [collect_and_print_statistics, hloop, Option.some_bind]
  simp [statsOf]

/-- Witness for claim C8 on a two-slot all-default result array. -/
theorem C8_witness :
    (∀ r ∈ init_read_res 2, r.finish = false) ∧
      collect_and_print_statistics (init_read_res 2) = some ([0], [0], [0]) :=
  ⟨by decide, C8_theorem (init_read_res 2) (by decide)⟩

/-- Claim C10: the bandwidth loop divides by `r['end'] - r['start']` with
no zero guard.  Whenever every completed slot has a strictly positive
measured interval the loop is total (no `ZeroDivisionError` is possible),
and a completed slot with equal stamps does make it fail. -/
theorem C10_theorem :
    (∀ res : List ReadRes, (∀ r ∈ res, r.finish = true → r.start < r.endT) →
      (collectLoop res 0 [] [] []).isSome = true) ∧
    collectLoop [⟨1, 1, 0, true⟩] 0 [] [] [] = none := by
  constructor
  · intro res h
    have hneq : ∀ r ∈ res, r.finish = true → r.endT - r.start ≠ 0 := by
      intro r hr hf h0
      have h1 := h r hr hf
      have : r.endT = r.start := by linarith [sub_eq_zero.mp h0]
      exact absurd this (ne_of_gt h1)
    rw [collectLoop_ok res 0 [] [] [] hneq]
    rfl
  · rw [collectLoop]
    norm_num

/-- Witness for claim C10 on a concrete completed slot with a positive
interval. -/
theorem C10_witness :
    (∀ r ∈ [(⟨1, 2, 5, true⟩ : ReadRes)], r.finish = true → r.start < r.endT) ∧
      (collectLoop [(⟨1, 2, 5, true⟩ : ReadRes)] 0 [] [] []).isSome = true := by
  have h : ∀ r ∈ [(⟨1, 2, 5, true⟩ : ReadRes)], r.finish = true → r.start < r.endT := by
    intro r hr _
    rw [List.mem_singleton] at hr
    rw [hr]
    norm_num
  exact ⟨h, C10_theorem.1 [⟨1, 2, 5, true⟩] h⟩

/-- Claim C5 (counterexample): when the completion callback runs for a
failed read (no data) at time 5 on a slot whose start was stamped at
time 1, the slot does not keep `end = 0`: the callback stamps `end`
before `len(data)` raises. -/
theorem C5_counterexample :
    (aio_read_complete 5 none (obj_aio_read_start 1 ⟨0, 0, 0, false⟩)).endT ≠ 0 := by
  norm_num [aio_read_complete, obj_aio_read_start]

/-- Claim C5 (amended): on a failed read the completion callback never
sets `finish` and never writes `len` (so a slot that was not completed
stays not completed), it does stamp `end` with the callback time while
`start` keeps its stamp, and any slot with `finish = false` is invisible
to the aggregator: deleting it from the result array leaves the computed
statistics unchanged. -/
theorem C5_theorem (t u : ℚ) (s : ReadRes) (res1 res2 : List ReadRes) (r : ReadRes)
    (hr : r.finish = false) :
    (aio_read_complete u none (obj_aio_read_start t s)).finish = s.finish ∧
    (aio_read_complete u none (obj_aio_read_start t s)).len = s.len ∧
    (aio_read_complete u none (obj_aio_read_start t s)).endT = u ∧
    (aio_read_complete u none (obj_aio_read_start t s)).start = t ∧
    collect_and_print_statistics (res1 ++ r :: res2) =
      collect_and_print_statistics (res1 ++ res2) := by
  refine ⟨rfl, rfl, rfl, rfl, ?_⟩
  rw [collect_and_print_statistics, collect_and_print_statistics,
    collectLoop_skip res1 res2 r hr]

/-- Witness for the amended claim C5 at concrete stamps and slots. -/
theorem C5_witness :
    ((⟨0, 0, 0, false⟩ : ReadRes).finish = false) ∧
    ((aio_read_complete 5 none (obj_aio_read_start 1 ⟨0, 0, 0, false⟩)).finish =
        (⟨0, 0, 0, false⟩ : ReadRes).finish ∧
      (aio_read_complete 5 none (obj_aio_read_start 1 ⟨0, 0, 0, false⟩)).len =
        (⟨0, 0, 0, false⟩ : ReadRes).len ∧
      (aio_read_complete 5 none (obj_aio_read_start 1 ⟨0, 0, 0, false⟩)).endT = 5 ∧
      (aio_read_complete 5 none (obj_aio_read_start 1 ⟨0, 0, 0, false⟩)).start = 1 ∧
      collect_and_print_statistics ([] ++ ⟨0, 0, 0, false⟩ :: []) =
        collect_and_print_statistics ([] ++ [])) :=
  ⟨rfl, C5_theorem 1 5 ⟨0, 0, 0, false⟩ [] [] ⟨0, 0, 0, false⟩ rfl⟩

/-- `int()` on a nonnegative value is the floor. -/
theorem pyInt_nonneg (q : ℚ) (h : 0 ≤ q) : pyInt q = ⌊q⌋ := by
  rw [pyInt, if_neg (by linarith)]

/-- The `objs_c` loop produces one count per probability. -/
theorem zipfCountsGo_length (N : ℕ) (ps : List ℚ) : ∀ count : ℤ,
    (zipfCountsGo N ps count).length = ps.length := by
  induction ps with
  | nil => intro count; rfl
  | cons p rest ih =>
    intro count
    rw [zipfCountsGo]
    simp [ih]

/-- With nonnegative probabilities every allocated count is nonnegative. -/
theorem zipfCountsGo_nonneg (N : ℕ) (ps : List ℚ) (hps : ∀ p ∈ ps, 0 ≤ p) :
    ∀ (count : ℤ), ∀ c ∈ zipfCountsGo N ps count, 0 ≤ c := by
  induction ps with
  | nil => intro count c hc; cases hc
  | cons p rest ih =>
    intro count c hc
    rw [zipfCountsGo] at hc
    simp only [List.mem_cons] at hc
    rcases hc with rfl | hc'
    · by_cases hlt : count < (N : ℤ)
      · have hp : 0 ≤ p := hps p (by simp)
        have h0 : 0 ≤ p * N := by positivity
        simp only [hlt, if_pos]
        rw [pyInt_nonneg _ h0]
        have := Int.floor_nonneg.mpr h0
        omega
      · simp [hlt]
    · exact ih (fun x hx => hps x (by simp [hx])) _ c hc'

/-- Lower bound on the total allocation: as long as the admission test
`count < reads_num` can still fail only after the target is reached, the
running total plus the remaining probability mass keeps the final total at
or above `min N (count + Σp·N)`. -/
theorem zipfCountsGo_sum_low (N : ℕ) (ps : List ℚ) (hps : ∀ p ∈ ps, 0 ≤ p) :
    ∀ count : ℤ,
      min (N : ℚ) ((count : ℚ) + ps.sum * N) ≤
        ((count + (zipfCountsGo N ps count).sum : ℤ) : ℚ) := by
  induction ps with
  | nil =>
    intro count
    simp only [zipfCountsGo, List.sum_nil, add_zero, List.sum_nil, zero_mul]
    exact min_le_right _ _
  | cons p rest ih =>
    intro count
    have hp : 0 ≤ p := hps p (by simp)
    have hrest : ∀ x ∈ rest, 0 ≤ x := fun x hx => hps x (by simp [hx])
    by_cases hlt : count < (N : ℤ)
    · have h0 : 0 ≤ p * N := by positivity
      have hc : zipfCountsGo N (p :: rest) count =
          (pyInt (p * N) + 1) :: zipfCountsGo N rest (count + (pyInt (p * N) + 1)) := by
        rw [zipfCountsGo]
        simp [hlt]
      have hcq : p * N ≤ ((pyInt (p * N) + 1 : ℤ) : ℚ) := by
        rw [pyInt_nonneg _ h0]
        push_cast
        linarith [Int.lt_floor_add_one (p * N)]
      have hih := ih hrest (count + (pyInt (p * N) + 1))
      rw [hc, List.sum_cons]
      have hmono : min (N : ℚ) ((count : ℚ) + (p :: rest).sum * N) ≤
          min (N : ℚ) (((count + (pyInt (p * N) + 1) : ℤ) : ℚ) + rest.sum * N) := by
        apply min_le_min (le_refl _)
        rw [List.sum_cons]
        push_cast
        push_cast at hcq
        linarith
      have hz : count + (pyInt (p * N) + 1) +
            (zipfCountsGo N rest (count + (pyInt (p * N) + 1))).sum =
          count + ((pyInt (p * N) + 1) +
            (zipfCountsGo N rest (count + (pyInt (p * N) + 1))).sum) := by
        ring
      exact le_trans hmono (le_trans hih (le_of_eq (congrArg (fun z : ℤ => (z : ℚ)) hz)))
    · have hc : zipfCountsGo N (p :: rest) count =
          0 :: zipfCountsGo N rest (count + 0) := by
        rw [zipfCountsGo]
        simp [hlt]
      have hsum0 : (0 : ℤ) ≤ (zipfCountsGo N rest (count + 0)).sum := by
        apply List.sum_nonneg
        intro c hcm
        exact zipfCountsGo_nonneg N rest hrest _ c hcm
      have hge : (N : ℤ) ≤ count := le_of_not_lt hlt
      rw [hc, List.sum_cons]
      refine le_trans (min_le_left _ _) ?_
      have : (N : ℤ) ≤ count + (0 + (zipfCountsGo N rest (count + 0)).sum) := by omega
      exact_mod_cast this

/-- Upper bound on the total allocation: each accepted rank contributes at
most its fractional share plus one. -/
theorem zipfCountsGo_sum_up (N : ℕ) (ps : List ℚ) (hps : ∀ p ∈ ps, 0 ≤ p) :
    ∀ count : ℤ,
      (((zipfCountsGo N ps count).sum : ℤ) : ℚ) ≤ ps.sum * N + ps.length := by
  induction ps with
  | nil =>
    intro count
    simp [zipfCountsGo]
  | cons p rest ih =>
    intro count
    have hp : 0 ≤ p := hps p (by simp)
    have hrest : ∀ x ∈ rest, 0 ≤ x := fun x hx => hps x (by simp [hx])
    have h0 : 0 ≤ p * N := by positivity
    have hihgen : ∀ c : ℤ, (((zipfCountsGo N rest c).sum : ℤ) : ℚ) ≤ rest.sum * N + rest.length :=
      ih hrest
    by_cases hlt : count < (N : ℤ)
    · have hc : zipfCountsGo N (p :: rest) count =
          (pyInt (p * N) + 1) :: zipfCountsGo N rest (count + (pyInt (p * N) + 1)) := by
        rw [zipfCountsGo]
        simp [hlt]
      have hcle : ((pyInt (p * N) + 1 : ℤ) : ℚ) ≤ p * N + 1 := by
        rw [pyInt_nonneg _ h0]
        push_cast
        linarith [Int.floor_le (p * N)]
      rw [hc, List.sum_cons]
      have := hihgen (count + (pyInt (p * N) + 1))
      push_cast
      push_cast at hcle this
      simp only [List.sum_cons, List.length_cons]
      push_cast
      linarith
    · have hc : zipfCountsGo N (p :: rest) count =
          0 :: zipfCountsGo N rest (count + 0) := by
        rw [zipfCountsGo]
        simp [hlt]
      rw [hc, List.sum_cons]
      have := hihgen (count + 0)
      push_cast
      push_cast at this
      simp only [List.sum_cons, List.length_cons]
      push_cast
      linarith

/-- Dividing every element by a constant divides the sum. -/
theorem sum_map_div (l : List ℚ) (s : ℚ) : (l.map (fun p => p / s)).sum = l.sum / s := by
  induction l with
  | nil => simp
  | cons a t ih => simp [ih, add_div]

/-- After `objs_p /= sum(objs_p)` the probabilities sum to 1. -/
theorem normalizeP_sum (ps : List ℚ) (h : ps.sum ≠ 0) : (normalizeP ps).sum = 1 := by
  rw [normalizeP, sum_map_div, div_self h]

/-- Normalizing a positive vector keeps every entry nonnegative. -/
theorem normalizeP_nonneg (ps : List ℚ) (hpos : ∀ p ∈ ps, 0 < p) :
    ∀ q ∈ normalizeP ps, 0 ≤ q := by
  intro q hq
  rw [normalizeP, List.mem_map] at hq
  obtain ⟨p, hp, rfl⟩ := hq
  have h1 : 0 < p := hpos p hp
  have h2 : 0 ≤ ps.sum := List.sum_nonneg (fun x hx => le_of_lt (hpos x hx))
  exact div_nonneg (le_of_lt h1) h2

/-- Normalization preserves the number of entries. -/
theorem normalizeP_length (ps : List ℚ) : (normalizeP ps).length = ps.length := by
  rw [normalizeP, List.length_map]

/-- The expansion loop emits one request per allocated unit:
its length is the sum of the (clamped) per-object counts. -/
theorem zipfExpand_length (objs : List Obj) : ∀ cs : List ℤ, objs.length = cs.length →
    (zipfExpand objs cs).length = (cs.map Int.toNat).sum := by
  induction objs with
  | nil =>
    intro cs h
    cases cs with
    | nil => rfl
    | cons c cs' => cases h
  | cons o os ih =>
    intro cs h
    cases cs with
    | nil => cases h
    | cons c cs' =>
      rw [zipfExpand]
      simp only [List.length_append, List.length_replicate, List.map_cons, List.sum_cons]
      rw [ih cs' (by simpa using h)]

/-- On nonnegative integers, summing after `toNat` is plain summing. -/
theorem sum_toNat_cast (cs : List ℤ) (h : ∀ c ∈ cs, 0 ≤ c) :
    ((cs.map Int.toNat).sum : ℤ) = cs.sum := by
  induction cs with
  | nil => rfl
  | cons c t ih =>
    rw [List.map_cons, List.sum_cons, List.sum_cons, Nat.cast_add,
      Int.toNat_of_nonneg (h c (by simp)), ih (fun x hx => h x (by simp [hx]))]

/-- Length bounds for the zipf branch of `prepare_objs`: the produced
request sequence has between `N` and `N + M` elements, where `M` is the
listing size, whatever reorderings the two shuffles apply. -/
theorem zipf_length_bounds (listing : List Obj) (N : ℕ) (ps : List ℚ)
    (shC : List ℤ → List ℤ) (sh : List ReadRequest → List ReadRequest)
    (hM : listing ≠ []) (hN : 1 ≤ N) (hlen : ps.length = listing.length)
    (hpos : ∀ p ∈ ps, 0 < p)
    (hshC : ∀ l, (shC l).Perm l) (hsh : ∀ l, (sh l).Perm l) :
    N ≤ (prepare_objs listing N true ps shC sh).length ∧
      (prepare_objs listing N true ps shC sh).length ≤ N + listing.length := by
  have hps : ps ≠ [] := by
    intro he
    rw [he] at hlen
    exact hM (List.length_eq_zero.mp hlen.symm)
  have hsumpos : 0 < ps.sum := List.sum_pos ps hpos hps
  set psn := normalizeP ps with hpsn
  have hnn : ∀ q ∈ psn, 0 ≤ q := normalizeP_nonneg ps hpos
  have hsum1 : psn.sum = 1 := normalizeP_sum ps (ne_of_gt hsumpos)
  have hlenn : psn.length = listing.length := by
    rw [hpsn, normalizeP_length, hlen]
  set cs := zipfCounts N psn with hcs
  have hcslen : cs.length = listing.length := by
    rw [hcs, zipfCounts, zipfCountsGo_length, hlenn]
  have hcnn : ∀ c ∈ cs, 0 ≤ c := by
    intro c hc
    exact zipfCountsGo_nonneg N psn hnn 0 c hc
  have hlow : (N : ℚ) ≤ ((cs.sum : ℤ) : ℚ) := by
    have := zipfCountsGo_sum_low N psn hnn 0
    rw [hsum1] at this
    simpa [hcs, zipfCounts] using this
  have hup : ((cs.sum : ℤ) : ℚ) ≤ (N : ℚ) + listing.length := by
    have := zipfCountsGo_sum_up N psn hnn 0
    rw [hsum1, one_mul, hlenn] at this
    simpa [hcs, zipfCounts] using this
  have hperm : (shC cs).Perm cs := hshC cs
  have hlen2 : listing.length = (shC cs).length := by
    rw [hperm.length_eq, hcslen]
  have hexp : (zipfExpand listing (shC cs)).length = ((shC cs).map Int.toNat).sum :=
    zipfExpand_length listing (shC cs) hlen2
  have hsumperm : ((shC cs).map Int.toNat).sum = (cs.map Int.toNat).sum :=
    (hperm.map Int.toNat).sum_eq
  have hcast : (((cs.map Int.toNat).sum : ℤ) : ℚ) = ((cs.sum : ℤ) : ℚ) := by
    rw [sum_toNat_cast cs hcnn]
  have hprep : (prepare_objs listing N true ps shC sh).length =
      (cs.map Int.toNat).sum := by
    rw [prepare_objs]
    simp only [ite_true, reduceIte]
    rw [(hsh _).length_eq, hexp, hsumperm]
  rw [hprep]
  constructor
  · have : (N : ℚ) ≤ (((cs.map Int.toNat).sum : ℤ) : ℚ) := by
      rw [hcast]
      exact hlow
    exact_mod_cast this
  · have : (((cs.map Int.toNat).sum : ℤ) : ℚ) ≤ (N : ℚ) + listing.length := by
      rw [hcast]
      exact hup
    exact_mod_cast this

/-- When the target is reachable (`c < N` and at least `N - c` objects
remain), the listing loop returns early with exactly the next `N - c`
listing entries appended, in listing order. -/
theorem uniformTake_small (N : ℕ) : ∀ (l : List Obj) (acc : List ReadRequest) (c : ℕ),
    c < N → N - c ≤ l.length →
    uniformTake N l acc c = Sum.inl (acc ++ (l.take (N - c)).map toReq) := by
  intro l
  induction l with
  | nil =>
    intro acc c hc hlen
    simp at hlen
    omega
  | cons o rest ih =>
    intro acc c hc hlen
    by_cases he : c + 1 = N
    · have h1 : N - c = 1 := by omega
      rw [uniformTake, if_pos he, h1]
      simp
    · have hc1 : c + 1 < N := by omega
      obtain ⟨k, hk⟩ : ∃ k, N - c = k + 1 := ⟨N - c - 1, by omega⟩
      have hk2 : N - (c + 1) = k := by omega
      rw [uniformTake, if_neg he, ih (acc ++ [toReq o]) (c + 1) hc1 (by simp at hlen ⊢; omega)]
      rw [hk, hk2, List.take_succ_cons]
      simp

/-- When fewer objects remain than the target still needs, the listing
loop falls through with all of them appended and the updated count. -/
theorem uniformTake_big (N : ℕ) : ∀ (l : List Obj) (acc : List ReadRequest) (c : ℕ),
    c + l.length < N →
    uniformTake N l acc c = Sum.inr (acc ++ l.map toReq, c + l.length) := by
  intro l
  induction l with
  | nil =>
    intro acc c hc
    simp [uniformTake]
  | cons o rest ih =>
    intro acc c hc
    have he : ¬ c + 1 = N := by
      simp at hc
      omega
    rw [uniformTake, if_neg he, ih (acc ++ [toReq o]) (c + 1) (by simp at hc ⊢; omega)]
    simp
    omega

/-- `cycleList` has the announced length. -/
theorem cycleList_length (base : List ReadRequest) (n : ℕ) :
    (cycleList base n).length = n := by
  simp [cycleList]

/-- One full cycle through `base` is `base` itself. -/
theorem cycleList_base (base : List ReadRequest) : cycleList base base.length = base := by
  apply List.ext_getElem (by simp [cycleList])
  intro i h1 h2
  simp only [cycleList, List.getElem_map, List.getElem_range]
  rw [Nat.mod_eq_of_lt h2, List.getD_eq_getElem base dReq h2]

/-- Extending a cycle by one appends the next wrapped entry. -/
theorem cycleList_succ (base : List ReadRequest) (c : ℕ) :
    cycleList base (c + 1) = cycleList base c ++ [base.getD (c % base.length) dReq] := by
  simp only [cycleList]
  rw [List.range_succ, List.map_append]
  rfl

/-- Reading the wrap-around entry out of the incomplete cycle gives the same
request as reading it out of `base` (the cycle extends `base`). -/
theorem cycleList_getD_wrap (base : List ReadRequest) (c : ℕ) (hM : 0 < base.length)
    (hc : base.length ≤ c) :
    (cycleList base c).getD (c % base.length) dReq = base.getD (c % base.length) dReq := by
  have hidx : c % base.length < base.length := Nat.mod_lt c hM
  have hidx2 : c % base.length < (cycleList base c).length := by
    rw [cycleList_length]
    omega
  rw [List.getD_eq_getElem _ dReq hidx2]
  simp only [cycleList, List.getElem_map, List.getElem_range]
  rw [Nat.mod_eq_of_lt hidx]

/-- The `while` loop smashed into closed form: starting from an incomplete
cycle of `c ≥ M` requests, it extends it to a cycle of `max N c`
requests. -/
theorem uniformFill_cycle (base : List ReadRequest) (N : ℕ) (hM : 0 < base.length) :
    ∀ (k c : ℕ), N - c ≤ k → base.length ≤ c →
      uniformFill (cycleList base c) c base.length N = cycleList base (max N c) := by
  intro k
  induction k with
  | zero =>
    intro c hk hc
    have hnc : ¬ c < N := by omega
    rw [uniformFill, dif_neg hnc, Nat.max_eq_right (by omega)]
  | succ k ih =>
    intro c hk hc
    by_cases h : c < N
    · rw [uniformFill, dif_pos h, cycleList_getD_wrap base c hM hc,
        ← cycleList_succ base c]
      rw [ih (c + 1) (by omega) (by omega)]
      rw [Nat.max_eq_left (by omega), Nat.max_eq_left (by omega)]
    · rw [uniformFill, dif_neg h, Nat.max_eq_right (by omega)]

/-- A cycle of at least one full round splits off a whole copy of
`base`. -/
theorem cycleList_split (base : List ReadRequest) (hM : 0 < base.length) (n : ℕ)
    (h : base.length ≤ n) :
    cycleList base n = base ++ cycleList base (n - base.length) := by
  have hsplit : List.range n = List.range base.length ++
      List.range' base.length (n - base.length) := by
    rw [List.range_eq_range', List.range_eq_range']
    have := List.range'_append 0 base.length (n - base.length) 1
    simp only [one_mul, zero_add] at this
    rw [this]
    congr 1
    omega
  rw [cycleList, hsplit, List.map_append]
  congr 1
  · have := cycleList_base base
    rw [cycleList] at this
    exact this
  · rw [List.range'_eq_map_range, List.map_map, cycleList]
    apply List.map_congr_left
    intro t ht
    simp only [Function.comp_apply]
    rw [Nat.add_mod_left]

/-- Each member of `base` occurs at least `⌊n / M⌋` times in a cycle of
`n` requests. -/
theorem count_cycleList (base : List ReadRequest) (hM : base ≠ []) (x : ReadRequest)
    (hx : x ∈ base) : ∀ n : ℕ, n / base.length ≤ (cycleList base n).count x := by
  have hM0 : 0 < base.length := List.length_pos.mpr hM
  intro n
  induction n using Nat.strong_induction_on with
  | _ n ih =>
    by_cases h : base.length ≤ n
    · rw [cycleList_split base hM0 n h, List.count_append]
      have h1 : 0 < base.count x := List.count_pos_iff.mpr hx
      have h2 := ih (n - base.length) (by omega)
      have hdiv : n / base.length = (n - base.length) / base.length + 1 := by
        rw [Nat.div_eq n]
        simp [hM0, h]
      omega
    · have hd : n / base.length = 0 := Nat.div_eq_of_lt (by omega)
      omega

/-- Uniform branch, `N ≤ M`: `prepare_objs` returns exactly the first `N`
listing entries in listing order, untouched by any shuffle. -/
theorem prepare_objs_uniform_small (listing : List Obj) (N : ℕ) (ps : List ℚ)
    (shC : List ℤ → List ℤ) (sh : List ReadRequest → List ReadRequest)
    (hN : 1 ≤ N) (hNM : N ≤ listing.length) :
    prepare_objs listing N false ps shC sh = (listing.take N).map toReq := by
  rw [prepare_objs]
  simp only [Bool.false_eq_true, if_false]
  rw [uniformTake_small N listing [] 0 (by omega) (by omega)]
  simp

/-- Uniform branch, `M < N`: `prepare_objs` returns a shuffle of the
`N`-request cycle through the listing. -/
theorem prepare_objs_uniform_big (listing : List Obj) (N : ℕ) (ps : List ℚ)
    (shC : List ℤ → List ℤ) (sh : List ReadRequest → List ReadRequest)
    (hM : listing ≠ []) (hNM : listing.length < N) :
    prepare_objs listing N false ps shC sh = sh (cycleList (listing.map toReq) N) := by
  rw [prepare_objs]
  simp only [Bool.false_eq_true, if_false]
  rw [uniformTake_big N listing [] 0 (by simpa using hNM)]
  simp only [List.nil_append, Nat.zero_add]
  have hM0 : 0 < (listing.map toReq).length := by
    simp [List.length_pos.mpr hM]
  have hfill := uniformFill_cycle (listing.map toReq) N hM0 N
    (listing.map toReq).length (by omega) (le_refl _)
  rw [cycleList_base] at hfill
  have hmax : max N (listing.map toReq).length = N := by
    rw [List.length_map]
    omega
  rw [hmax] at hfill
  rw [show listing.length = (List.map toReq listing).length from (List.length_map listing toReq).symm]
  rw [hfill]

/-- The uniform branch always produces exactly `N` requests. -/
theorem prepare_objs_uniform_length (listing : List Obj) (N : ℕ) (ps : List ℚ)
    (shC : List ℤ → List ℤ) (sh : List ReadRequest → List ReadRequest)
    (hM : listing ≠ []) (hN : 1 ≤ N) (hsh : ∀ l, (sh l).Perm l) :
    (prepare_objs listing N false ps shC sh).length = N := by
  by_cases h : N ≤ listing.length
  · rw [prepare_objs_uniform_small listing N ps shC sh hN h]
    simp only [List.length_map, List.length_take]
    omega
  · rw [prepare_objs_uniform_big listing N ps shC sh hM (by omega)]
    rw [(hsh _).length_eq, cycleList_length]

/-- Claim C3: in zipf mode, for any nonempty listing, any positive target
count, and any positive pmf vector of matching length (whatever skew
produced it), the returned request sequence has length `L` with
`N ≤ L ≤ N + M`, hence `|L - N| ≤ M`; the sequence is returned at that
length as-is, the shuffles only permuting it. -/
theorem C3_theorem (listing : List Obj) (N : ℕ) (ps : List ℚ)
    (shC : List ℤ → List ℤ) (sh : List ReadRequest → List ReadRequest)
    (hM : listing ≠ []) (hN : 1 ≤ N) (hlen : ps.length = listing.length)
    (hpos : ∀ p ∈ ps, 0 < p)
    (hshC : ∀ l, (shC l).Perm l) (hsh : ∀ l, (sh l).Perm l) :
    N ≤ (prepare_objs listing N true ps shC sh).length ∧
      (prepare_objs listing N true ps shC sh).length ≤ N + listing.length :=
  zipf_length_bounds listing N ps shC sh hM hN hlen hpos hshC hsh

/-- Witness for claim C3 at a 2-object listing with pmf weights `1, 1/4`
(the scipy zipf weights for `a = 2` up to normalization) and `N = 6`. -/
theorem C3_witness :
    (([⟨"o1", 100⟩, ⟨"o2", 200⟩] : List Obj) ≠ [] ∧
      ([1, 1/4] : List ℚ).length = ([⟨"o1", 100⟩, ⟨"o2", 200⟩] : List Obj).length ∧
      (∀ p ∈ ([1, 1/4] : List ℚ), 0 < p)) ∧
    (6 ≤ (prepare_objs [⟨"o1", 100⟩, ⟨"o2", 200⟩] 6 true [1, 1/4] id id).length ∧
      (prepare_objs [⟨"o1", 100⟩, ⟨"o2", 200⟩] 6 true [1, 1/4] id id).length ≤
        6 + ([⟨"o1", 100⟩, ⟨"o2", 200⟩] : List Obj).length) := by
  have h1 : ([⟨"o1", 100⟩, ⟨"o2", 200⟩] : List Obj) ≠ [] := by simp
  have h2 : ([1, 1/4] : List ℚ).length = ([⟨"o1", 100⟩, ⟨"o2", 200⟩] : List Obj).length := by
    simp
  have h3 : ∀ p ∈ ([1, 1/4] : List ℚ), 0 < p := by
    intro p hp
    rcases List.mem_cons.mp hp with rfl | hp'
    · norm_num
    · rcases List.mem_cons.mp hp' with rfl | hp''
      · norm_num
      · cases hp''
  exact ⟨⟨h1, h2, h3⟩, C3_theorem [⟨"o1", 100⟩, ⟨"o2", 200⟩] 6 [1, 1/4] id id h1 (by omega)
    h2 h3 (fun l => List.Perm.refl l) (fun l => List.Perm.refl l)⟩

/-- Claim C2 (counterexample): in zipf mode, with the 2-object listing and
pmf weights `1, 1/4` (zipf `a = 2`), `N = 6` and identity shuffles, the
sampler returns 7 requests while there are 6 result slots: the request
sequence length does not equal `N`. -/
theorem C2_counterexample :
    (prepare_objs [⟨"o1", 100⟩, ⟨"o2", 200⟩] 6 true [1, 1/4] id id).length = 7 ∧
      (init_read_res 6).length = 6 ∧ (7 : ℕ) ≠ 6 := by
  refine ⟨?_, by simp [init_read_res], by omega⟩
  norm_num [prepare_objs, zipfCounts, zipfCountsGo, normalizeP, pyInt, zipfExpand]
  decide

/-- Claim C2 (amended): the tracker always has exactly `N` result slots;
in uniform mode the request sequence also has exactly `N` entries (slot
`i` pairing with request `i`), but in zipf mode its length is only
bounded: it lies between `N` and `N + M` and can differ from `N`. -/
theorem C2_theorem (listing : List Obj) (N : ℕ) (ps : List ℚ)
    (shC : List ℤ → List ℤ) (shu shz : List ReadRequest → List ReadRequest)
    (hM : listing ≠ []) (hN : 1 ≤ N) (hlen : ps.length = listing.length)
    (hpos : ∀ p ∈ ps, 0 < p) (hshC : ∀ l, (shC l).Perm l)
    (hshu : ∀ l, (shu l).Perm l) (hshz : ∀ l, (shz l).Perm l) :
    (init_read_res N).length = N ∧
    (prepare_objs listing N false ps shC shu).length = N ∧
    (N ≤ (prepare_objs listing N true ps shC shz).length ∧
      (prepare_objs listing N true ps shC shz).length ≤ N + listing.length) :=
  ⟨by simp [init_read_res],
    prepare_objs_uniform_length listing N ps shC shu hM hN hshu,
    zipf_length_bounds listing N ps shC shz hM hN hlen hpos hshC hshz⟩

/-- Witness for the amended claim C2 at the 2-object listing, `N = 6`. -/
theorem C2_witness :
    (([⟨"o1", 100⟩, ⟨"o2", 200⟩] : List Obj) ≠ [] ∧
      ([1, 1/4] : List ℚ).length = ([⟨"o1", 100⟩, ⟨"o2", 200⟩] : List Obj).length ∧
      (∀ p ∈ ([1, 1/4] : List ℚ), 0 < p)) ∧
    ((init_read_res 6).length = 6 ∧
      (prepare_objs [⟨"o1", 100⟩, ⟨"o2", 200⟩] 6 false [1, 1/4] id id).length = 6 ∧
      (6 ≤ (prepare_objs [⟨"o1", 100⟩, ⟨"o2", 200⟩] 6 true [1, 1/4] id id).length ∧
        (prepare_objs [⟨"o1", 100⟩, ⟨"o2", 200⟩] 6 true [1, 1/4] id id).length ≤
          6 + ([⟨"o1", 100⟩, ⟨"o2", 200⟩] : List Obj).length)) := by
  have h1 : ([⟨"o1", 100⟩, ⟨"o2", 200⟩] : List Obj) ≠ [] := by simp
  have h2 : ([1, 1/4] : List ℚ).length = ([⟨"o1", 100⟩, ⟨"o2", 200⟩] : List Obj).length := by
    simp
  have h3 : ∀ p ∈ ([1, 1/4] : List ℚ), 0 < p := by
    intro p hp
    rcases List.mem_cons.mp hp with rfl | hp'
    · norm_num
    · rcases List.mem_cons.mp hp' with rfl | hp''
      · norm_num
      · cases hp''
  exact ⟨⟨h1, h2, h3⟩, C2_theorem [⟨"o1", 100⟩, ⟨"o2", 200⟩] 6 [1, 1/4] id id id h1
    (by omega) h2 h3 (fun l => List.Perm.refl l) (fun l => List.Perm.refl l)
    (fun l => List.Perm.refl l)⟩

/-- Claim C6: in uniform mode with `1 ≤ N ≤ M`, the sampler's output is a
permutation of the first `N` listing entries (in fact it is exactly that
list), and every request value occurs in the output exactly as often as
among the first `N` listing entries. -/
theorem C6_theorem (listing : List Obj) (N : ℕ) (ps : List ℚ)
    (shC : List ℤ → List ℤ) (sh : List ReadRequest → List ReadRequest)
    (hN : 1 ≤ N) (hNM : N ≤ listing.length) :
    (prepare_objs listing N false ps shC sh).Perm ((listing.take N).map toReq) ∧
    ∀ x : ReadRequest, (prepare_objs listing N false ps shC sh).count x =
      ((listing.take N).map toReq).count x := by
  have h := prepare_objs_uniform_small listing N ps shC sh hN hNM
  rw [h]
  exact ⟨List.Perm.refl _, fun x => rfl⟩

/-- Witness for claim C6 at the spec's end-to-end example: a 4-object
listing of sizes 10, 20, 30, 40 and `N = 4`. -/
theorem C6_witness :
    ((1 : ℕ) ≤ 4 ∧ (4 : ℕ) ≤ ([⟨"a", 10⟩, ⟨"b", 20⟩, ⟨"c", 30⟩, ⟨"d", 40⟩] : List Obj).length) ∧
    ((prepare_objs [⟨"a", 10⟩, ⟨"b", 20⟩, ⟨"c", 30⟩, ⟨"d", 40⟩] 4 false [] id id).Perm
        ((([⟨"a", 10⟩, ⟨"b", 20⟩, ⟨"c", 30⟩, ⟨"d", 40⟩] : List Obj).take 4).map toReq) ∧
      ∀ x : ReadRequest,
        (prepare_objs [⟨"a", 10⟩, ⟨"b", 20⟩, ⟨"c", 30⟩, ⟨"d", 40⟩] 4 false [] id id).count x =
          ((([⟨"a", 10⟩, ⟨"b", 20⟩, ⟨"c", 30⟩, ⟨"d", 40⟩] : List Obj).take 4).map toReq).count x) :=
  ⟨⟨by omega, by simp⟩,
    C6_theorem [⟨"a", 10⟩, ⟨"b", 20⟩, ⟨"c", 30⟩, ⟨"d", 40⟩] 4 [] id id (by omega) (by simp)⟩

/-- Claim C9: in uniform mode with `1 ≤ N ≤ M`, the sampler returns
exactly the first `N` listing entries in listing order — the early return
skips the final shuffle, so the output does not depend on the shuffle
function at all (it equals the output under any other shuffle). -/
theorem C9_theorem (listing : List Obj) (N : ℕ) (ps : List ℚ)
    (shC : List ℤ → List ℤ) (sh sh' : List ReadRequest → List ReadRequest)
    (hN : 1 ≤ N) (hNM : N ≤ listing.length) :
    prepare_objs listing N false ps shC sh = (listing.take N).map toReq ∧
    prepare_objs listing N false ps shC sh = prepare_objs listing N false ps shC sh' := by
  have h1 := prepare_objs_uniform_small listing N ps shC sh hN hNM
  have h2 := prepare_objs_uniform_small listing N ps shC sh' hN hNM
  exact ⟨h1, by rw [h1, h2]⟩

/-- Witness for claim C9: taking 2 of 4 listed objects, with the identity
and the reversal in the shuffle slot. -/
theorem C9_witness :
    ((1 : ℕ) ≤ 2 ∧ (2 : ℕ) ≤ ([⟨"a", 10⟩, ⟨"b", 20⟩, ⟨"c", 30⟩, ⟨"d", 40⟩] : List Obj).length) ∧
    (prepare_objs [⟨"a", 10⟩, ⟨"b", 20⟩, ⟨"c", 30⟩, ⟨"d", 40⟩] 2 false [] id id =
        ((([⟨"a", 10⟩, ⟨"b", 20⟩, ⟨"c", 30⟩, ⟨"d", 40⟩] : List Obj).take 2).map toReq) ∧
      prepare_objs [⟨"a", 10⟩, ⟨"b", 20⟩, ⟨"c", 30⟩, ⟨"d", 40⟩] 2 false [] id id =
        prepare_objs [⟨"a", 10⟩, ⟨"b", 20⟩, ⟨"c", 30⟩, ⟨"d", 40⟩] 2 false [] id List.reverse) :=
  ⟨⟨by omega, by simp⟩,
    C9_theorem [⟨"a", 10⟩, ⟨"b", 20⟩, ⟨"c", 30⟩, ⟨"d", 40⟩] 2 [] id id List.reverse
      (by omega) (by simp)⟩

/-- Claim C7: in uniform mode with `M < N` (nonempty listing), the output
has length exactly `N`, it is a permutation of the sequence that assigns
request `i` to listing index `i mod M`, and every listing object appears
at least `⌊N / M⌋` times. -/
theorem C7_theorem (listing : List Obj) (N : ℕ) (ps : List ℚ)
    (shC : List ℤ → List ℤ) (sh : List ReadRequest → List ReadRequest)
    (hM : listing ≠ []) (hNM : listing.length < N) (hsh : ∀ l, (sh l).Perm l) :
    (prepare_objs listing N false ps shC sh).length = N ∧
    (prepare_objs listing N false ps shC sh).Perm (cycleList (listing.map toReq) N) ∧
    (∀ j < listing.length, N / listing.length ≤
      (prepare_objs listing N false ps shC sh).count (toReq (listing.getD j ⟨"", 0⟩))) := by
  have hb := prepare_objs_uniform_big listing N ps shC sh hM hNM
  have hperm : (prepare_objs listing N false ps shC sh).Perm
      (cycleList (listing.map toReq) N) := by
    rw [hb]
    exact hsh _
  refine ⟨?_, hperm, ?_⟩
  · rw [hperm.length_eq, cycleList_length]
  · intro j hj
    have hM0 : (listing.map toReq) ≠ [] := by simp [hM]
    have hjm : j < (listing.map toReq).length := by simp [hj]
    have hxmem : (listing.map toReq)[j] ∈ listing.map toReq := List.getElem_mem hjm
    have hxg : toReq (listing.getD j ⟨"", 0⟩) = (listing.map toReq)[j] := by
      rw [List.getD_eq_getElem listing _ hj]
      simp [List.getElem_map]
    rw [hperm.count_eq, hxg]
    have hcnt := count_cycleList (listing.map toReq) hM0 _ hxmem N
    rw [List.length_map] at hcnt
    exact hcnt

/-- Witness for claim C7 on a 3-object listing with `N = 7`. -/
theorem C7_witness :
    (([⟨"a", 1⟩, ⟨"b", 2⟩, ⟨"c", 3⟩] : List Obj) ≠ [] ∧
      ([⟨"a", 1⟩, ⟨"b", 2⟩, ⟨"c", 3⟩] : List Obj).length < 7) ∧
    ((prepare_objs [⟨"a", 1⟩, ⟨"b", 2⟩, ⟨"c", 3⟩] 7 false [] id id).length = 7 ∧
      (prepare_objs [⟨"a", 1⟩, ⟨"b", 2⟩, ⟨"c", 3⟩] 7 false [] id id).Perm
        (cycleList (([⟨"a", 1⟩, ⟨"b", 2⟩, ⟨"c", 3⟩] : List Obj).map toReq) 7) ∧
      (∀ j < ([⟨"a", 1⟩, ⟨"b", 2⟩, ⟨"c", 3⟩] : List Obj).length,
        7 / ([⟨"a", 1⟩, ⟨"b", 2⟩, ⟨"c", 3⟩] : List Obj).length ≤
          (prepare_objs [⟨"a", 1⟩, ⟨"b", 2⟩, ⟨"c", 3⟩] 7 false [] id id).count
            (toReq (([⟨"a", 1⟩, ⟨"b", 2⟩, ⟨"c", 3⟩] : List Obj).getD j ⟨"", 0⟩)))) :=
  ⟨⟨by simp, by simp⟩,
    C7_theorem [⟨"a", 1⟩, ⟨"b", 2⟩, ⟨"c", 3⟩] 7 [] id id (by simp) (by simp)
      (fun l => List.Perm.refl l)⟩
